import Mathlib

/-!
Verification of the `ark` repository's pooled allocator (`alloc/alloc.go`)
and growable byte buffer (`buffer/buffer.go`) as a shallow embedding.

Go byte slices are modelled by their visible length and the capacity of
their backing array; where content matters (the buffer layer) the data is a
`List Nat` of byte values.  Go `int` arguments that may be negative are
`Int`; indices that the code keeps non-negative are `Nat`.
-/

namespace Ark

/-! ### Allocator (alloc/alloc.go) -/

/-- `MaxSize` is the maximum supported buffer size (64KiB). -/
def MaxSize : Nat := 65536

/-- A Go byte slice header as the allocator sees it: visible length and
capacity of the backing array.  The allocator never inspects content. -/
structure Slice where
  len : Nat
  cap : Nat
deriving Repr, DecidableEq

/-- `Allocator` manages a set of power-of-two sized byte slice pools.
Pool index `i` holds buffers of size `1<<i`, for `i` in `[0, 16]`.
`sync.Pool` is modelled as a deterministic LIFO list of resident slices;
an empty pool materialises a fresh zero-filled slice of its class size. -/
structure Allocator where
  buffers : List (List Slice)
deriving Repr, DecidableEq

/-- `NewAllocator` creates a new Allocator with pools for 1B..64KiB
(`maxBits = 16`, so 17 pools, all initially empty). -/
def NewAllocator : Allocator := ⟨List.replicate 17 []⟩

/-- `msb` returns `floor(log2(size))` for `size > 0` and `0` otherwise
(`bits.Len(uint(size)) - 1`). -/
def msb (size : Int) : Nat :=
  if size ≤ 0 then 0 else Nat.log 2 size.toNat

/-- Drawing from `sync.Pool` number `idx`: take the most recently deposited
slice, or make a fresh `make([]byte, 1<<idx)` when the pool is empty. -/
def poolDraw (a : Allocator) (idx : Nat) : Slice × Allocator :=
  match a.buffers.getD idx [] with
  | [] => (⟨2 ^ idx, 2 ^ idx⟩, a)
  | r :: rest => (r, ⟨a.buffers.set idx rest⟩)

/-- `Get` returns a byte slice with length == size and capacity being the
smallest power of two >= size, with an upper bound of MaxSize.  If
`size <= 0` or `size > MaxSize`, it returns `nil` (modelled `none`).
`buf[:size]` keeps the drawn slice's capacity and truncates its length. -/
def Allocator.get (a : Allocator) (size : Int) : Option Slice × Allocator :=
  if size ≤ 0 ∨ (MaxSize : Int) < size then (none, a)
  else
    let idx0 := msb size
    let idx := if size.toNat ≠ 2 ^ idx0 then idx0 + 1 else idx0
    if a.buffers.length ≤ idx then (none, a)
    else
      let (buf, a') := poolDraw a idx
      (some ⟨size.toNat, buf.cap⟩, a')

/-- `Put` returns a buffer to the allocator.  The capacity of buf must be a
power of two and <= MaxSize; otherwise, Put returns an error and does not
store the buffer.  On success the slice's length is reset to its full
capacity and it is deposited in pool `msb(cap)`.  The pair is the updated
allocator and the error (`none` = success). -/
def Allocator.put (a : Allocator) (buf : Option Slice) : Allocator × Option String :=
  match buf with
  | none => (a, some "alloc: Put(nil)")
  | some r =>
    let c := r.cap
    if c = 0 ∨ MaxSize < c then
      (a, some "alloc: Put() incorrect buffer size")
    else if c &&& (c - 1) ≠ 0 then
      (a, some "alloc: Put() incorrect buffer size (not power of two)")
    else
      let idx := msb (c : Int)
      if a.buffers.length ≤ idx then
        (a, some "alloc: Put() invalid pool index")
      else
        (⟨a.buffers.set idx (⟨c, c⟩ :: a.buffers.getD idx [])⟩, none)

/-- Allocator invariant: 17 pools, and every slice resident in pool `i`
has length and capacity exactly `2^i` (fresh slices are made so, and `Put`
deposits reset slices in the matching class). -/
def Allocator.wf (a : Allocator) : Prop :=
  a.buffers.length = 17 ∧
    ∀ i < 17, ∀ r ∈ a.buffers.getD i [], r.len = 2 ^ i ∧ r.cap = 2 ^ i

instance (a : Allocator) : Decidable a.wf := by
  unfold Allocator.wf; infer_instance

/-- `c` is the smallest power of two that is at least `s`. -/
def IsLeastPow2Geq (c s : Nat) : Prop :=
  (∃ j, c = 2 ^ j) ∧ s ≤ c ∧ ∀ m, (∃ j, m = 2 ^ j) → s ≤ m → c ≤ m

/-! ### Arithmetic facts about the size-class computation -/

/-- A positive number with `c &&& (c-1) = 0` is a power of two, and
conversely; this is the power-of-two test used by `Put`. -/
theorem land_pred_eq_zero_iff (c : Nat) (h1 : 1 ≤ c) :
    c &&& (c - 1) = 0 ↔ ∃ j, c = 2 ^ j := by
  constructor
  · intro h
    refine ⟨Nat.log 2 c, ?_⟩
    by_contra hne
    have hk1 : 2 ^ Nat.log 2 c ≤ c := Nat.pow_log_le_self 2 (by omega)
    have hk2 : c < 2 ^ (Nat.log 2 c + 1) := Nat.lt_pow_succ_log_self (by norm_num) c
    set k := Nat.log 2 c with hk
    have hpow : 2 ^ (k + 1) = 2 * 2 ^ k := by rw [pow_succ]; ring
    have hlt : 2 ^ k < c := lt_of_le_of_ne hk1 (fun he => hne he.symm)
    have hc : c.testBit k = true := by
      rw [Nat.testBit_to_div_mod]
      have hd : c / 2 ^ k = 1 := by
        apply Nat.div_eq_of_lt_le (by omega) (by omega)
      simp [hd]
    have hc1 : (c - 1).testBit k = true := by
      rw [Nat.testBit_to_div_mod]
      have hd : (c - 1) / 2 ^ k = 1 := by
        apply Nat.div_eq_of_lt_le (by omega) (by omega)
      simp [hd]
    have hbit := congrArg (fun n => n.testBit k) h
    simp only [Nat.testBit_and, hc, hc1, Bool.and_self, Nat.zero_testBit] at hbit
    exact absurd hbit (by simp)
  · rintro ⟨j, rfl⟩
    rw [Nat.and_pow_two_sub_one_eq_mod]
    exact Nat.mod_self _

/-- The class index computed by `Get` (round `log2` up unless `s` is an
exact power of two) yields the least power of two that covers `s`. -/
theorem pow2_class_least (s : Nat) (h1 : 1 ≤ s) :
    IsLeastPow2Geq
      (2 ^ (if s ≠ 2 ^ Nat.log 2 s then Nat.log 2 s + 1 else Nat.log 2 s)) s := by
  have hk1 : 2 ^ Nat.log 2 s ≤ s := Nat.pow_log_le_self 2 (by omega)
  have hk2 : s < 2 ^ (Nat.log 2 s + 1) := Nat.lt_pow_succ_log_self (by norm_num) s
  set k := Nat.log 2 s with hk
  by_cases he : s = 2 ^ k
  · rw [if_neg (by simpa using he)]
    exact ⟨⟨k, rfl⟩, by omega, fun m hm hsm => by omega⟩
  · rw [if_pos (by simpa using he)]
    refine ⟨⟨k + 1, rfl⟩, by omega, ?_⟩
    rintro m ⟨j, rfl⟩ hsm
    have hkj : k < j := by
      have : (2 : Nat) ^ k < 2 ^ j := by omega
      exact (Nat.pow_lt_pow_iff_right (by norm_num)).mp this
    exact Nat.pow_le_pow_right (by norm_num) (by omega)

/-- For `s` in `[1, 65536]` the class index computed by `Get` fits the
17-pool table. -/
theorem pow2_class_le_16 (s : Nat) (h1 : 1 ≤ s) (h2 : s ≤ 65536) :
    (if s ≠ 2 ^ Nat.log 2 s then Nat.log 2 s + 1 else Nat.log 2 s) ≤ 16 := by
  have hlog : Nat.log 2 s ≤ 16 := by
    have h16 : Nat.log 2 65536 = 16 :=
      Nat.log_eq_of_pow_le_of_lt_pow (by norm_num) (by norm_num)
    calc Nat.log 2 s ≤ Nat.log 2 65536 := Nat.log_mono_right h2
      _ = 16 := h16
  have hk1 : 2 ^ Nat.log 2 s ≤ s := Nat.pow_log_le_self 2 (by omega)
  by_cases he : s = 2 ^ Nat.log 2 s
  · rw [if_neg (by simpa using he)]; exact hlog
  · rw [if_pos (by simpa using he)]
    rcases Nat.lt_or_ge (Nat.log 2 s) 16 with h | h
    · omega
    · exfalso
      have h16 : Nat.log 2 s = 16 := by omega
      rw [h16] at hk1 he
      norm_num at hk1
      omega

/-- On a well-formed allocator, `Get` of an in-range size returns a slice of
length `size` whose capacity is `2^idx` for the computed class index. -/
theorem get_some (a : Allocator) (hwf : a.wf) (s : Int) (h1 : 1 ≤ s) (h2 : s ≤ 65536) :
    (a.get s).1 = some ⟨s.toNat,
      2 ^ (if s.toNat ≠ 2 ^ Nat.log 2 s.toNat then Nat.log 2 s.toNat + 1
           else Nat.log 2 s.toNat)⟩ := by
  have hs0 : ¬ (s ≤ 0 ∨ (MaxSize : Int) < s) := by
    simp only [MaxSize]; omega
  have hmsb : msb s = Nat.log 2 s.toNat := by
    unfold msb; rw [if_neg (by omega)]
  unfold Allocator.get
  rw [if_neg hs0]
  simp only [hmsb]
  set idx := (if s.toNat ≠ 2 ^ Nat.log 2 s.toNat then Nat.log 2 s.toNat + 1
              else Nat.log 2 s.toNat) with hidx
  have hle : idx ≤ 16 := pow2_class_le_16 s.toNat (by omega) (by omega)
  have hlen : ¬ (a.buffers.length ≤ idx) := by rw [hwf.1]; omega
  rw [if_neg hlen]
  unfold poolDraw
  cases hpool : a.buffers.getD idx [] with
  | nil => simp
  | cons r rest =>
    have hr := (hwf.2 idx (by omega) r
      (by rw [hpool]; exact List.mem_cons_self r rest)).2
    simp [hr]

/-- C1: For every requested size `s`, `Allocator.Get(s)` returns the
unservable sentinel (`nil`) if and only if `s <= 0` or `s > 65536`; and for
every `s` in `[1, 65536]`, `Get(s)` returns a byte region whose length is
exactly `s` and whose capacity is the smallest power of two `>= s`. -/
theorem get_size_class (a : Allocator) (hwf : a.wf) (s : Int) :
    ((a.get s).1 = none ↔ (s ≤ 0 ∨ (65536 : Int) < s)) ∧
    (1 ≤ s → s ≤ 65536 →
      ∃ r, (a.get s).1 = some r ∧ (r.len : Int) = s ∧ IsLeastPow2Geq r.cap s.toNat) := by
  by_cases hrange : s ≤ 0 ∨ (65536 : Int) < s
  · have hnone : (a.get s).1 = none := by
      unfold Allocator.get
      rw [if_pos (by simpa [MaxSize] using hrange)]
    exact ⟨by simp [hnone, hrange], fun h1 h2 => absurd hrange (by omega)⟩
  · push_neg at hrange
    have hsome := get_some a hwf s (by omega) (by omega)
    constructor
    · rw [hsome]; simp; omega
    · intro _ _
      refine ⟨_, hsome, by simp; omega, ?_⟩
      exact pow2_class_least s.toNat (by omega)

/-- Witness for C1 at the empty default allocator and `s = 3`. -/
theorem get_size_class_witness :
    ∃ r, (NewAllocator.get 3).1 = some r ∧ (r.len : Int) = 3 ∧
      IsLeastPow2Geq r.cap (3 : Int).toNat :=
  (get_size_class NewAllocator (by decide) 3).2 (by norm_num) (by norm_num)

/-- Unfolding of `Put` in the success case: capacity a power of two
`2^j` with `j ≤ 16`, on a 17-pool allocator. -/
theorem put_success_eq (a : Allocator) (hlen : a.buffers.length = 17)
    (r : Slice) (j : Nat) (hj : r.cap = 2 ^ j) (hj16 : j ≤ 16) :
    a.put (some r) =
      (⟨a.buffers.set j (⟨r.cap, r.cap⟩ :: a.buffers.getD j [])⟩, none) := by
  have hc1 : 1 ≤ r.cap := by rw [hj]; exact Nat.one_le_two_pow
  have hcmax : ¬ (r.cap = 0 ∨ MaxSize < r.cap) := by
    simp only [MaxSize]
    rw [hj]
    have : (2 : Nat) ^ j ≤ 2 ^ 16 := Nat.pow_le_pow_right (by norm_num) hj16
    omega
  have hland : r.cap &&& (r.cap - 1) = 0 := (land_pred_eq_zero_iff r.cap hc1).mpr ⟨j, hj⟩
  have hmsb : msb (r.cap : Int) = j := by
    unfold msb
    rw [if_neg (by omega), Int.toNat_natCast, hj, Nat.log_pow (by norm_num)]
  unfold Allocator.put
  simp only [hcmax, if_false, hland]
  rw [if_neg (by simp), hmsb, if_neg (by omega)]

/-- The allocator invariant survives depositing a reset slice `⟨2^j, 2^j⟩`
into pool `j`. -/
theorem wf_set_deposit (a : Allocator) (hwf : a.wf) (j : Nat) (hj16 : j ≤ 16) :
    Allocator.wf ⟨a.buffers.set j (⟨2 ^ j, 2 ^ j⟩ :: a.buffers.getD j [])⟩ := by
  refine ⟨by simp [hwf.1], ?_⟩
  intro i hi s hs
  by_cases hij : i = j
  · subst hij
    rw [List.getD_eq_getElem?_getD,
      List.getElem?_set_self (by rw [hwf.1]; omega)] at hs
    simp only [Option.getD_some] at hs
    rcases List.mem_cons.mp hs with h | h
    · subst h; exact ⟨rfl, rfl⟩
    · exact hwf.2 i hi s (by simpa [List.getD_eq_getElem?_getD] using h)
  · rw [List.getD_eq_getElem?_getD, List.getElem?_set_ne (fun h => hij h.symm)] at hs
    exact hwf.2 i hi s (by simpa [List.getD_eq_getElem?_getD] using hs)

/-- On error, `Put` leaves the allocator state unchanged: the returned
state is `a` in every branch that reports an error. -/
theorem put_error_state (a : Allocator) (r? : Option Slice)
    (he : (a.put r?).2 ≠ none) : (a.put r?).1 = a := by
  match r? with
  | none => rfl
  | some r =>
    simp only [Allocator.put] at he ⊢
    split
    · rfl
    · split
      · rfl
      · split
        · rfl
        · rename_i h1 h2 h3
          rw [if_neg h1, if_neg h2, if_neg h3] at he
          exact absurd rfl he

/-- `Put` preserves the allocator invariant in every case. -/
theorem put_wf (a : Allocator) (hwf : a.wf) (r? : Option Slice) : (a.put r?).1.wf := by
  by_cases he : (a.put r?).2 = none
  · match r? with
    | none => simp [Allocator.put] at he
    | some r =>
      have hc1 : 1 ≤ r.cap := by
        by_contra h
        have : r.cap = 0 := by omega
        simp [Allocator.put, this] at he
      by_cases hmax : MaxSize < r.cap
      · simp [Allocator.put, hmax] at he
      · by_cases hland : r.cap &&& (r.cap - 1) = 0
        · obtain ⟨j, hj⟩ := (land_pred_eq_zero_iff r.cap hc1).mp hland
          have hj16 : j ≤ 16 := by
            have h2 : (2 : Nat) ^ j ≤ 2 ^ 16 := by
              rw [← hj]; simp only [MaxSize] at hmax; norm_num; omega
            exact (Nat.pow_le_pow_iff_right (by norm_num)).mp h2
          rw [put_success_eq a hwf.1 r j hj hj16]
          have hd := wf_set_deposit a hwf j hj16
          simp only [hj]
          exact hd
        · exfalso
          have hsome : (a.put (some r)).2 =
              some "alloc: Put() incorrect buffer size (not power of two)" := by
            simp only [Allocator.put]
            rw [if_neg (by simp only [MaxSize] at hmax ⊢; omega), if_pos hland]
          rw [hsome] at he
          exact Option.noConfusion he
  · rw [put_error_state a r? he]; exact hwf

/-- A power of two that is at most `65536 = 2^16` has exponent at most 16. -/
theorem pow_le_65536 {j : Nat} (h : 2 ^ j ≤ 65536) : j ≤ 16 := by
  have h2 : (2 : Nat) ^ j ≤ 2 ^ 16 := by norm_num; omega
  exact (Nat.pow_le_pow_iff_right (a := 2) (by norm_num)).mp h2

/-- If `Put` succeeds, its argument was a non-nil slice whose capacity is in
`[1, 65536]` and passes the bit test `cap &&& (cap - 1) = 0`. -/
theorem put_none_cases (a : Allocator) (r? : Option Slice)
    (he : (a.put r?).2 = none) :
    ∃ r, r? = some r ∧ 1 ≤ r.cap ∧ r.cap ≤ 65536 ∧ r.cap &&& (r.cap - 1) = 0 := by
  match r? with
  | none => simp [Allocator.put] at he
  | some r =>
    refine ⟨r, rfl, ?_⟩
    simp only [Allocator.put] at he
    split at he
    · exact absurd he (by simp)
    · split at he
      · exact absurd he (by simp)
      · split at he
        · exact absurd he (by simp)
        · rename_i h1 h2 h3
          simp only [MaxSize] at h1
          exact ⟨by omega, by omega, not_not.mp h2⟩

/-- C4: For every slice `buf`, `Allocator.Put(buf)` returns an error and
retains nothing in any pool when `buf` is nil, when its capacity is outside
`[1, 65536]`, or when its capacity is not an exact power of two; and for
every `buf` whose capacity is a power of two in `[1, 65536]` (including
65536 itself), `Put` succeeds and deposits the region into the pool of
class `log2(capacity)` with its visible length reset to its full
capacity. -/
theorem put_validation (a : Allocator) (hwf : a.wf) (r? : Option Slice) :
    (∀ e, (a.put r?).2 = some e → (a.put r?).1 = a) ∧
    ((a.put r?).2 = none ↔
      ∃ r, r? = some r ∧ 1 ≤ r.cap ∧ r.cap ≤ 65536 ∧ ∃ j, r.cap = 2 ^ j) ∧
    (∀ r j, r? = some r → r.cap = 2 ^ j → r.cap ≤ 65536 →
      (a.put r?).1.buffers =
        a.buffers.set j (⟨r.cap, r.cap⟩ :: a.buffers.getD j []) ∧
      j = Nat.log 2 r.cap) := by
  refine ⟨?_, ⟨?_, ?_⟩, ?_⟩
  · intro e he
    exact put_error_state a r? (by rw [he]; simp)
  · intro he
    obtain ⟨r, hr, h1, h2, hland⟩ := put_none_cases a r? he
    exact ⟨r, hr, h1, h2, (land_pred_eq_zero_iff r.cap h1).mp hland⟩
  · rintro ⟨r, rfl, h1, h2, j, hj⟩
    have hj16 : j ≤ 16 := pow_le_65536 (hj ▸ h2)
    rw [put_success_eq a hwf.1 r j hj hj16]
  · rintro r j rfl hj h2
    have hj16 : j ≤ 16 := pow_le_65536 (hj ▸ h2)
    rw [put_success_eq a hwf.1 r j hj hj16]
    exact ⟨rfl, by rw [hj, Nat.log_pow (by norm_num)]⟩

/-- Witness for C4: `Put` of a capacity-4 slice on the fresh allocator
deposits a reset slice in pool 2. -/
theorem put_validation_witness :
    (NewAllocator.put (some ⟨4, 4⟩)).1.buffers =
      NewAllocator.buffers.set 2 (⟨4, 4⟩ :: NewAllocator.buffers.getD 2 []) ∧
    2 = Nat.log 2 (Slice.mk 4 4).cap :=
  (put_validation NewAllocator (by decide) (some ⟨4, 4⟩)).2.2 ⟨4, 4⟩ 2 rfl
    (by norm_num) (by norm_num)

/-! ### Growable buffer (buffer/buffer.go)

`data` is the visible byte content of the Go slice `b.data` (so
`data.length = len(b.data)`, the buffer's capacity in the spec's sense);
`gocap` is `cap(b.data)`, the capacity of the Go slice header, consulted
only when `Release` hands the slice to `alloc.Put`.  Byte values are
`Nat`.  `end` is a Lean keyword, so the write cursor is `endPos`. -/

/-- DefaultSize is the default buffer size used by `New()`. -/
def DefaultSize : Nat := 32 * 1024

/-- Buffer is a simple growable byte buffer with read/write indexes. -/
structure Buffer where
  data : List Nat
  start : Nat
  endPos : Nat
  pooled : Bool
  gocap : Nat
deriving Repr, DecidableEq

/-- The zero `Buffer{}` value. -/
def Buffer.empty : Buffer := ⟨[], 0, 0, false, 0⟩

/-- `Len` returns the number of readable bytes (`end - start`). -/
def Buffer.Len (b : Buffer) : Nat := b.endPos - b.start

/-- `Bytes` returns the current readable slice `data[start:end]`. -/
def Buffer.Bytes (b : Buffer) : List Nat :=
  (b.data.drop b.start).take (b.endPos - b.start)

/-- `Cap` returns the total length of the underlying slice `len(data)`. -/
def Buffer.Cap (b : Buffer) : Nat := b.data.length

/-- `IsEmpty` reports whether there is no readable data. -/
def Buffer.IsEmpty (b : Buffer) : Bool := b.Len = 0

/-- `Reset` clears the buffer content but keeps the underlying slice. -/
def Buffer.Reset (b : Buffer) : Buffer := { b with start := 0, endPos := 0 }

/-- `NewSize` creates a buffer with an initial capacity of `size`, drawing
from the allocator when possible and falling back to `make([]byte, size)`
(`size = 0` gives the nil slice).  A pooled region's bytes are not
specified by the pool contract (they may be stale); the model takes them
as zero, and no theorem below inspects them. -/
def NewSize (size : Int) (a : Allocator) : Buffer × Allocator :=
  let size := if size < 0 then 0 else size
  if size = 0 then (⟨[], 0, 0, false, 0⟩, a)
  else
    match a.get size with
    | (some data, a') =>
      (⟨List.replicate size.toNat 0, 0, 0, true, data.cap⟩, a')
    | (none, a') =>
      (⟨List.replicate size.toNat 0, 0, 0, false, size.toNat⟩, a')

/-- `New` creates a buffer with `DefaultSize` capacity. -/
def New (a : Allocator) : Buffer × Allocator := NewSize (DefaultSize : Nat) a

/-- `FromBytes` wraps an existing byte slice as a Buffer (readable content =
full slice); it does not copy the data and does not use the pool.  The
wrapped Go slice's capacity is the caller's; the model records its length
(`gocap` is never consulted for non-pooled buffers). -/
def FromBytes (p : List Nat) : Buffer := ⟨p, 0, p.length, false, p.length⟩

/-- The in-place compaction `copy(b.data, b.data[b.start:b.end]);
b.end = b.Len(); b.start = 0` from `grow`: the readable bytes move to the
front, the tail of the region keeps its old bytes. -/
def Buffer.compactStep (b : Buffer) : Buffer :=
  { b with data := b.Bytes ++ b.data.drop b.Len, endPos := b.Len, start := 0 }

/-- `grow` ensures there is at least `n` more bytes of free space for
writing: no-op when free space suffices, else compaction (when there is a
read gap and readable content), else reallocation of a fresh non-pooled
region of `newCap` bytes (`curLen + n`, raised to `len(data)*2` when that
is larger, with the `newCap == 0` fallback to `n`). -/
def Buffer.grow (b : Buffer) (n : Int) : Buffer :=
  if n ≤ 0 then b
  else
    let free : Int := (b.data.length : Int) - b.endPos
    if n ≤ free then b
    else
      let b1 :=
        if 0 < b.start ∧ 0 < b.Len then b.compactStep
        else b
      let free1 : Int := (b1.data.length : Int) - b1.endPos
      if n ≤ free1 then b1
      else
        let curLen := b1.Len
        let newCap0 := curLen + n.toNat
        let newCap :=
          if newCap0 < b1.data.length * 2 then
            if b1.data.length * 2 = 0 then n.toNat else b1.data.length * 2
          else newCap0
        ⟨b1.Bytes ++ List.replicate (newCap - curLen) 0, 0, curLen, false, newCap⟩

/-- `Extend` reserves `n` bytes at the end and returns the sub-slice
`data[start:end]` for the caller to fill.  `n < 0` panics
("buffer: negative extend size"), modelled as `none`. -/
def Buffer.Extend (b : Buffer) (n : Int) : Option (List Nat × Buffer) :=
  if n < 0 then none
  else
    let b := b.grow n
    let start := b.endPos
    let b' := { b with endPos := b.endPos + n.toNat }
    some ((b'.data.drop start).take n.toNat, b')

/-- `Write` appends data to the buffer; returns the count written
(the error is always nil).  `copy(b.data[b.end:], p)` copies
`min(len(data) - end, len(p))` bytes. -/
def Buffer.Write (b : Buffer) (p : List Nat) : Buffer × Nat :=
  if p.length = 0 then (b, 0)
  else
    let b := b.grow (p.length : Int)
    let n := min (b.data.length - b.endPos) p.length
    (⟨b.data.take b.endPos ++ p.take n ++ b.data.drop (b.endPos + n),
      b.start, b.endPos + n, b.pooled, b.gocap⟩, n)

/-- `WriteByte` appends a single byte (`b.data[b.end] = c; b.end++`);
never fails. -/
def Buffer.WriteByte (b : Buffer) (c : Nat) : Buffer :=
  let b := b.grow 1
  { b with data := b.data.set b.endPos c, endPos := b.endPos + 1 }

/-- `Read` reads from the buffer into a destination of length `destLen`.
Returns the bytes copied, the updated buffer, and whether `io.EOF` was
reported.  `n = min(destLen, end - start)`; when everything is consumed
both indexes reset. -/
def Buffer.Read (b : Buffer) (destLen : Nat) : (List Nat × Buffer) × Bool :=
  if b.IsEmpty then (([], b), true)
  else
    let n := min destLen b.Len
    let out := b.Bytes.take n
    let start' := b.start + n
    if start' = b.endPos then ((out, { b with start := 0, endPos := 0 }), false)
    else ((out, { b with start := start' }), false)

/-- `ReadByte` reads and returns a single byte, or `io.EOF` (`none`) when
empty. -/
def Buffer.ReadByte (b : Buffer) : Option (Nat × Buffer) :=
  if b.IsEmpty then none
  else
    let c := b.data.getD b.start 0
    let start' := b.start + 1
    if start' = b.endPos then some (c, { b with start := 0, endPos := 0 })
    else some (c, { b with start := start' })

/-- `To` returns the first `n` bytes of the readable region without
consuming them; `n <= 0` yields nil and `n > Len()` clamps to `Len()`. -/
def Buffer.To (b : Buffer) (n : Int) : List Nat :=
  if n ≤ 0 then []
  else
    let m := if (b.Len : Int) < n then b.Len else n.toNat
    (b.data.drop b.start).take m

/-- `ReadBytes` returns exactly `n` bytes, or an error: negative `n` yields
`errors.New("buffer: negative length")`, too little content yields
`io.EOF` (rendered "EOF"); on success the copy is returned and `start`
advances (with the usual cursor reset on emptiness).  The returned buffer
is the post-call state. -/
def Buffer.ReadBytes (b : Buffer) (n : Int) : Except String (List Nat) × Buffer :=
  if n < 0 then (.error "buffer: negative length", b)
  else if (b.Len : Int) < n then (.error "EOF", b)
  else
    let nn := n.toNat
    let out := (b.data.drop b.start).take nn
    let start' := b.start + nn
    if start' = b.endPos then (.ok out, { b with start := 0, endPos := 0 })
    else (.ok out, { b with start := start' })

/-- `Release` returns the underlying slice to the alloc pool if it came
from there (ignoring the pool's error), and resets the Buffer to the zero
value.  The receiver may be nil (`none`), which is a no-op. -/
def Release (b? : Option Buffer) (a : Allocator) : Option Buffer × Allocator :=
  match b? with
  | none => (none, a)
  | some b =>
    if b.pooled ∧ b.data ≠ [] then
      (some Buffer.empty, (a.put (some ⟨b.data.length, b.gocap⟩)).1)
    else
      (some Buffer.empty, a)

/-- The buffer invariant `0 <= start <= end <= len(data)` from the spec
(the lower bound is inherent to `Nat`). -/
def Buffer.wf (b : Buffer) : Prop :=
  b.start ≤ b.endPos ∧ b.endPos ≤ b.data.length

instance (b : Buffer) : Decidable b.wf := by
  unfold Buffer.wf; infer_instance

/-- Under the invariant the readable slice has exactly `Len` bytes. -/
theorem bytes_length (b : Buffer) (hwf : b.wf) : b.Bytes.length = b.Len := by
  obtain ⟨h1, h2⟩ := hwf
  simp [Buffer.Bytes, Buffer.Len]
  omega

/-- `grow` with a non-positive request is a no-op. -/
theorem grow_nonpos (b : Buffer) (n : Int) (h : n ≤ 0) : b.grow n = b := by
  unfold Buffer.grow
  rw [if_pos h]

/-- `grow` is a no-op when the free space already covers `n`. -/
theorem grow_noop (b : Buffer) (n : Int) (h0 : 0 < n)
    (h : n ≤ (b.data.length : Int) - b.endPos) : b.grow n = b := by
  simp only [Buffer.grow]
  rw [if_neg (by omega), if_pos h]

/-- Compaction keeps the region's length. -/
theorem compactStep_data_length (b : Buffer) (hwf : b.wf) :
    b.compactStep.data.length = b.data.length := by
  obtain ⟨h1, h2⟩ := hwf
  have hL : b.Len = b.endPos - b.start := rfl
  simp only [Buffer.compactStep, List.length_append, List.length_drop,
    bytes_length b ⟨h1, h2⟩]
  omega

/-- Compaction keeps the readable content. -/
theorem compactStep_Bytes (b : Buffer) (hwf : b.wf) :
    b.compactStep.Bytes = b.Bytes := by
  simp only [Buffer.compactStep, Buffer.Bytes, Buffer.Len, List.drop_zero,
    Nat.sub_zero]
  exact List.take_left' (by
    have := bytes_length b hwf
    simpa [Buffer.Bytes, Buffer.Len] using this)

/-- Compaction keeps the readable length. -/
theorem compactStep_Len (b : Buffer) : b.compactStep.Len = b.Len := by
  simp [Buffer.compactStep, Buffer.Len]

/-- The new-capacity computation of `grow` is
`max(curLen + n, len(data)*2)`. -/
theorem newCap_if_eq (L c nn : Nat) :
    (if c + nn < L * 2 then (if L * 2 = 0 then nn else L * 2) else c + nn)
      = max (c + nn) (L * 2) := by
  split
  · rw [if_neg (by omega)]
    omega
  · omega

/-- `grow` resolves to pure compaction when there is a gap of read bytes,
readable content, and the capacity minus content covers `n`. -/
theorem grow_compact (b : Buffer) (n : Int) (hwf : b.wf) (h0 : 0 < n)
    (hfree : (b.data.length : Int) - b.endPos < n)
    (hs : 0 < b.start) (hl : 0 < b.Len)
    (hc : n ≤ (b.data.length : Int) - b.Len) :
    b.grow n = b.compactStep := by
  simp only [Buffer.grow]
  rw [if_neg (by omega), if_neg (by omega),
    if_pos (show 0 < b.start ∧ 0 < b.Len from ⟨hs, hl⟩)]
  rw [if_pos (by
    rw [compactStep_data_length b hwf]
    show n ≤ (b.data.length : Int) - b.compactStep.endPos
    have he : b.compactStep.endPos = b.Len := rfl
    rw [he]
    exact hc)]

/-- `grow` resolves to reallocation when free space is short and either no
compaction applies or compaction cannot supply `n` bytes; the new capacity
is `max(Len + n, len(data) * 2)`. -/
theorem grow_realloc (b : Buffer) (n : Int) (hwf : b.wf) (h0 : 0 < n)
    (hfree : (b.data.length : Int) - b.endPos < n)
    (hcond : ¬(0 < b.start ∧ 0 < b.Len) ∨ (b.data.length : Int) - b.Len < n) :
    b.grow n = ⟨b.Bytes ++
        List.replicate (max (b.Len + n.toNat) (b.data.length * 2) - b.Len) 0,
      0, b.Len, false, max (b.Len + n.toNat) (b.data.length * 2)⟩ := by
  have hL : b.Len = b.endPos - b.start := rfl
  obtain ⟨h1, h2⟩ := hwf
  simp only [Buffer.grow]
  rw [if_neg (by omega), if_neg (by omega)]
  by_cases hcase : 0 < b.start ∧ 0 < b.Len
  · have hlt : (b.data.length : Int) - b.Len < n :=
      hcond.resolve_left (fun hn => hn hcase)
    rw [if_pos hcase]
    have e1 : b.compactStep.data.length = b.data.length :=
      compactStep_data_length b ⟨h1, h2⟩
    have e2 : b.compactStep.endPos = b.Len := rfl
    rw [if_neg (by rw [e1, e2]; omega)]
    rw [e1, compactStep_Bytes b ⟨h1, h2⟩, compactStep_Len b, newCap_if_eq]
  · rw [if_neg hcase]
    rw [if_neg (by omega)]
    rw [newCap_if_eq]

/-- Exhaustive case split over the three outcomes of `grow`. -/
theorem grow_split (b : Buffer) (n : Int) (hwf : b.wf) (P : Buffer → Prop)
    (hid : (n ≤ 0 ∨ n ≤ (b.data.length : Int) - b.endPos) → P b)
    (hcomp : 0 < b.start → 0 < b.Len → (b.data.length : Int) - b.endPos < n →
      n ≤ (b.data.length : Int) - b.Len → P b.compactStep)
    (hre : 0 < n → (b.data.length : Int) - b.endPos < n →
      P ⟨b.Bytes ++
          List.replicate (max (b.Len + n.toNat) (b.data.length * 2) - b.Len) 0,
        0, b.Len, false, max (b.Len + n.toNat) (b.data.length * 2)⟩) :
    P (b.grow n) := by
  by_cases h0 : n ≤ 0
  · rw [grow_nonpos b n h0]; exact hid (Or.inl h0)
  · by_cases hfree : n ≤ (b.data.length : Int) - b.endPos
    · rw [grow_noop b n (by omega) hfree]; exact hid (Or.inr hfree)
    · by_cases hcase : 0 < b.start ∧ 0 < b.Len
      · by_cases hc : n ≤ (b.data.length : Int) - b.Len
        · rw [grow_compact b n hwf (by omega) (by omega) hcase.1 hcase.2 hc]
          exact hcomp hcase.1 hcase.2 (by omega) hc
        · rw [grow_realloc b n hwf (by omega) (by omega) (Or.inr (by omega))]
          exact hre (by omega) (by omega)
      · rw [grow_realloc b n hwf (by omega) (by omega) (Or.inl hcase)]
        exact hre (by omega) (by omega)

/-- `grow` preserves the buffer invariant. -/
theorem grow_wf (b : Buffer) (n : Int) (hwf : b.wf) : (b.grow n).wf := by
  refine grow_split b n hwf Buffer.wf (fun _ => hwf) ?_ ?_
  · intro _ _ _ _
    refine ⟨Nat.zero_le _, ?_⟩
    rw [compactStep_data_length b hwf]
    show b.Len ≤ b.data.length
    have h1 := hwf.1; have h2 := hwf.2
    have hL : b.Len = b.endPos - b.start := rfl
    omega
  · intro _ _
    refine ⟨Nat.zero_le _, ?_⟩
    show b.Len ≤ (b.Bytes ++ List.replicate _ 0).length
    rw [List.length_append, bytes_length b hwf, List.length_replicate]
    omega

/-- `grow` never changes the readable content. -/
theorem grow_Bytes (b : Buffer) (n : Int) (hwf : b.wf) :
    (b.grow n).Bytes = b.Bytes := by
  refine grow_split b n hwf (fun x => x.Bytes = b.Bytes) (fun _ => rfl) ?_ ?_
  · intro _ _ _ _
    exact compactStep_Bytes b hwf
  · intro _ _
    show Buffer.Bytes ⟨b.Bytes ++ List.replicate _ 0, 0, b.Len, false, _⟩ = b.Bytes
    simp only [Buffer.Bytes, List.drop_zero, Nat.sub_zero]
    exact List.take_left' (bytes_length b hwf)

/-- `grow` never changes the readable length. -/
theorem grow_Len (b : Buffer) (n : Int) (hwf : b.wf) : (b.grow n).Len = b.Len := by
  rw [← bytes_length _ (grow_wf b n hwf), grow_Bytes b n hwf, bytes_length b hwf]

/-- After `grow n` with `0 < n`, the free space `len(data) - end` covers
`n`. -/
theorem grow_free (b : Buffer) (n : Int) (hwf : b.wf) (h0 : 0 < n) :
    n.toNat ≤ (b.grow n).data.length - (b.grow n).endPos := by
  refine grow_split b n hwf
    (fun x => n.toNat ≤ x.data.length - x.endPos) ?_ ?_ ?_
  · rintro (h | h)
    · omega
    · have h2 := hwf.2; omega
  · intro _ _ _ hc
    rw [compactStep_data_length b hwf]
    show n.toNat ≤ b.data.length - b.Len
    omega
  · intro _ _
    show n.toNat ≤ (b.Bytes ++ List.replicate _ 0).length - b.Len
    rw [List.length_append, bytes_length b hwf, List.length_replicate]
    omega

/-- C2: For every buffer `b` and every `n > 0` such that free space
(`capacity - end`) is less than `n`, `grow(n)` proceeds in order: if
`start > 0` and readable content exists, it first compacts by shifting
`data[start:end]` to offset 0 and returns if free space now covers `n`;
otherwise it reallocates to a new capacity that is at least
`currentLength + n` and never smaller than double the current capacity
(exactly `n` when the current capacity is 0), copies the readable content
to the start of the fresh non-pooled region, sets `start = 0` and
`end = currentLength`, and marks the buffer as no longer pool-owned; if
free space already covers `n`, `grow(n)` changes nothing. -/
theorem grow_spec (b : Buffer) (n : Int) (hwf : b.wf) (hn : 0 < n) :
    (n ≤ (b.data.length : Int) - b.endPos → b.grow n = b) ∧
    ((b.data.length : Int) - b.endPos < n →
      (0 < b.start → 0 < b.Len → n ≤ (b.data.length : Int) - b.Len →
        b.grow n = ⟨b.Bytes ++ b.data.drop b.Len, 0, b.Len, b.pooled, b.gocap⟩) ∧
      ((¬(0 < b.start ∧ 0 < b.Len) ∨ (b.data.length : Int) - b.Len < n) →
        (b.grow n).data.length = max (b.Len + n.toNat) (b.data.length * 2) ∧
        (b.data.length = 0 → (b.grow n).data.length = n.toNat) ∧
        (b.grow n).start = 0 ∧ (b.grow n).endPos = b.Len ∧
        (b.grow n).pooled = false ∧
        (b.grow n).data.take b.Len = b.Bytes)) := by
  constructor
  · exact grow_noop b n hn
  · intro hfree
    constructor
    · intro hs hl hc
      exact grow_compact b n hwf hn hfree hs hl hc
    · intro hcond
      rw [grow_realloc b n hwf hn hfree hcond]
      have hL : b.Len = b.endPos - b.start := rfl
      have h1 := hwf.1; have h2 := hwf.2
      have hlen : (b.Bytes ++
          List.replicate (max (b.Len + n.toNat) (b.data.length * 2) - b.Len) 0).length
            = max (b.Len + n.toNat) (b.data.length * 2) := by
        rw [List.length_append, bytes_length b hwf, List.length_replicate]
        omega
      refine ⟨hlen, ?_, rfl, rfl, rfl, List.take_left' (bytes_length b hwf)⟩
      intro hz
      rw [hlen]
      omega

/-- Witness for C2 at `FromBytes [1,2,3]` and `n = 2` (reallocation path:
no free space, no read gap). -/
theorem grow_spec_witness :
    ((FromBytes [1, 2, 3]).grow 2).data.length = 6 ∧
    ((FromBytes [1, 2, 3]).grow 2).pooled = false := by
  have h := (grow_spec (FromBytes [1, 2, 3]) 2 (by decide) (by decide)).2
    (by decide)
  have h2 := h.2 (Or.inl (by decide))
  exact ⟨by rw [h2.1]; decide, h2.2.2.2.2.1⟩

/-- `Write` appends `p` to the readable content and reports `p.length`
bytes written. -/
theorem write_Bytes (b : Buffer) (hwf : b.wf) (p : List Nat) :
    (b.Write p).1.Bytes = b.Bytes ++ p ∧ (b.Write p).2 = p.length ∧
    (b.Write p).1.wf := by
  by_cases hp : p.length = 0
  · rw [List.eq_nil_of_length_eq_zero hp]
    simp [Buffer.Write, hwf]
  · have hg := grow_wf b (p.length : Int) hwf
    have hfree := grow_free b (p.length : Int) hwf (by omega)
    rw [Int.toNat_natCast] at hfree
    set g := b.grow (p.length : Int) with hgdef
    obtain ⟨hg1, hg2⟩ := hg
    have hn : min (g.data.length - g.endPos) p.length = p.length := by omega
    have heq : b.Write p =
        (⟨g.data.take g.endPos ++ p.take p.length ++ g.data.drop (g.endPos + p.length),
          g.start, g.endPos + p.length, g.pooled, g.gocap⟩, p.length) := by
      simp only [Buffer.Write]
      rw [if_neg hp, ← hgdef, hn]
    rw [heq]
    simp only [List.take_length]
    have hlen : (g.data.take g.endPos).length = g.endPos := by
      rw [List.length_take]; omega
    refine ⟨?_, by trivial, ?_⟩
    · show ((g.data.take g.endPos ++ p ++ g.data.drop (g.endPos + p.length)).drop g.start).take
        (g.endPos + p.length - g.start) = b.Bytes ++ p
      rw [List.append_assoc, List.drop_append_of_le_length (by omega)]
      rw [List.take_append_eq_append_take]
      have h1 : ((g.data.take g.endPos).drop g.start).length = g.endPos - g.start := by
        rw [List.length_drop, hlen]
      rw [h1]
      have h2 : (g.endPos + p.length - g.start) - (g.endPos - g.start) = p.length := by omega
      rw [h2, List.take_of_length_le (by rw [h1]; omega),
        List.take_append_of_le_length (le_refl p.length), List.take_length]
      congr 1
      rw [List.drop_take]
      have : g.Bytes = b.Bytes := grow_Bytes b (p.length : Int) hwf
      rw [← this]
      rfl
    · constructor
      · show g.start ≤ g.endPos + p.length
        omega
      · show g.endPos + p.length ≤
          (g.data.take g.endPos ++ p ++ g.data.drop (g.endPos + p.length)).length
        simp only [List.length_append, hlen, List.length_drop]
        omega

/-- `WriteByte` appends one byte to the readable content. -/
theorem writeByte_Bytes (b : Buffer) (hwf : b.wf) (c : Nat) :
    (b.WriteByte c).Bytes = b.Bytes ++ [c] ∧ (b.WriteByte c).wf := by
  have hg := grow_wf b 1 hwf
  have hfree := grow_free b 1 hwf (by omega)
  have hgB := grow_Bytes b 1 hwf
  set g := b.grow 1 with hgdef
  obtain ⟨hg1, hg2⟩ := hg
  have hset : g.data.set g.endPos c =
      g.data.take g.endPos ++ c :: g.data.drop (g.endPos + 1) :=
    List.set_eq_take_cons_drop c (by omega)
  have heq : b.WriteByte c =
      ⟨g.data.set g.endPos c, g.start, g.endPos + 1, g.pooled, g.gocap⟩ := rfl
  rw [heq, hset]
  have hlen : (g.data.take g.endPos).length = g.endPos := by
    rw [List.length_take]; omega
  constructor
  · show ((g.data.take g.endPos ++ c :: g.data.drop (g.endPos + 1)).drop g.start).take
      (g.endPos + 1 - g.start) = b.Bytes ++ [c]
    rw [List.drop_append_of_le_length (by omega)]
    rw [List.take_append_eq_append_take]
    have h1 : ((g.data.take g.endPos).drop g.start).length = g.endPos - g.start := by
      rw [List.length_drop, hlen]
    rw [h1, List.take_of_length_le (by rw [h1]; omega)]
    have h2 : (g.endPos + 1 - g.start) - (g.endPos - g.start) = 1 := by omega
    rw [h2]
    have h3 : (c :: g.data.drop (g.endPos + 1)).take 1 = [c] := by
      simp
    rw [h3]
    congr 1
    rw [List.drop_take]
    rw [← hgB]
    rfl
  · exact ⟨by show g.start ≤ g.endPos + 1; omega, by
      show g.endPos + 1 ≤ (g.data.take g.endPos ++ c :: g.data.drop (g.endPos + 1)).length
      simp only [List.length_append, hlen, List.length_cons, List.length_drop]
      omega⟩

/-- Folding `WriteByte` over a byte list appends the whole list. -/
theorem foldl_writeByte_Bytes (p : List Nat) : ∀ (b : Buffer), b.wf →
    (p.foldl Buffer.WriteByte b).Bytes = b.Bytes ++ p ∧
    (p.foldl Buffer.WriteByte b).wf := by
  induction p with
  | nil => intro b hwf; exact ⟨by simp, hwf⟩
  | cons c p ih =>
    intro b hwf
    obtain ⟨hB, hwf'⟩ := writeByte_Bytes b hwf c
    obtain ⟨ihB, ihwf⟩ := ih (b.WriteByte c) hwf'
    refine ⟨?_, ihwf⟩
    simp only [List.foldl_cons, ihB, hB, List.append_assoc, List.singleton_append]

/-- `Read` with a destination of at least `Len` bytes drains the whole
readable region. -/
theorem read_all (b : Buffer) (hwf : b.wf) (destLen : Nat) (h : b.Len ≤ destLen) :
    (b.Read destLen).1.1 = b.Bytes := by
  by_cases he : b.IsEmpty
  · have hL : b.Len = 0 := by simpa [Buffer.IsEmpty] using he
    simp [Buffer.Read, he]
    rw [← bytes_length b hwf] at hL
    exact List.eq_nil_of_length_eq_zero hL
  · have hn : min destLen b.Len = b.Len := by omega
    simp only [Buffer.Read, he, Bool.false_eq_true, if_false, hn]
    split
    · simp [List.take_of_length_le (le_of_eq (bytes_length b hwf))]
    · simp [List.take_of_length_le (le_of_eq (bytes_length b hwf))]

/-- Repeatedly calling `ReadByte` (the test-harness protocol for reading a
buffer back byte by byte), collecting until `io.EOF` or the fuel runs
out. -/
def drainBytes : Nat → Buffer → List Nat
  | 0, _ => []
  | fuel + 1, b =>
    match b.ReadByte with
    | none => []
    | some (c, b') => c :: drainBytes fuel b'

/-- `ReadByte` on a non-empty buffer returns the head of the readable
region and a buffer holding its tail. -/
theorem readByte_cons (b : Buffer) (hwf : b.wf) (hl : 0 < b.Len) :
    ∃ b', b.ReadByte = some (b.data.getD b.start 0, b') ∧ b'.wf ∧
      b.Bytes = b.data.getD b.start 0 :: b'.Bytes ∧ b'.Len = b.Len - 1 := by
  have h1 := hwf.1; have h2 := hwf.2
  have hL : b.Len = b.endPos - b.start := rfl
  have hne : ¬ (b.IsEmpty = true) := by
    simp [Buffer.IsEmpty]
    omega
  have hsl : b.start < b.data.length := by omega
  have hdrop : b.data.drop b.start = b.data[b.start] :: b.data.drop (b.start + 1) :=
    List.drop_eq_getElem_cons hsl
  have hgetD : b.data.getD b.start 0 = b.data[b.start] := by
    rw [List.getD_eq_getElem?_getD, List.getElem?_eq_getElem hsl]
    rfl
  have hsucc : b.endPos - b.start = (b.endPos - (b.start + 1)) + 1 := by omega
  have hhead : b.Bytes =
      b.data.getD b.start 0 :: (b.data.drop (b.start + 1)).take (b.endPos - (b.start + 1)) := by
    show (b.data.drop b.start).take (b.endPos - b.start) = _
    rw [hdrop, hsucc, List.take_succ_cons, hgetD]
  by_cases hse : b.start + 1 = b.endPos
  · refine ⟨{ b with start := 0, endPos := 0 }, ?_, ⟨Nat.le_refl 0, Nat.zero_le _⟩, ?_, by
      show 0 - 0 = b.Len - 1
      omega⟩
    · simp only [Buffer.ReadByte, hne, Bool.false_eq_true, if_false, if_pos hse]
    · rw [hhead]
      have hz : b.endPos - (b.start + 1) = 0 := by omega
      rw [hz]
      rfl
  · refine ⟨{ b with start := b.start + 1 }, ?_,
      ⟨by show b.start + 1 ≤ b.endPos; omega, h2⟩, by rw [hhead]; rfl, by
      show b.endPos - (b.start + 1) = b.Len - 1
      omega⟩
    simp only [Buffer.ReadByte, hne, Bool.false_eq_true, if_false, if_neg hse]

/-- Draining a buffer with exactly `Len` rounds of `ReadByte` recovers the
readable content. -/
theorem drainBytes_all (fuel : Nat) : ∀ b : Buffer, b.wf → b.Len = fuel →
    drainBytes fuel b = b.Bytes := by
  induction fuel with
  | zero =>
    intro b hwf hL
    simp only [drainBytes]
    symm
    apply List.eq_nil_of_length_eq_zero
    rw [bytes_length b hwf, hL]
  | succ k ih =>
    intro b hwf hL
    obtain ⟨b', hrb, hwf', hcons, hL'⟩ := readByte_cons b hwf (by omega)
    simp only [drainBytes, hrb]
    rw [ih b' hwf' (by omega), hcons]

/-- C3: For every byte sequence `p`, writing `p` into a Buffer via `Write`
(or byte-by-byte via `WriteByte`) and then reading it back via `Read` (or
via repeated `ReadByte`) yields exactly the sequence `p`, both when `p`
fits within the buffer's initial capacity and when it exceeds it (the
buffer `b` ranges over every well-formed buffer with no unread content, of
any capacity). -/
theorem write_read_roundtrip (b : Buffer) (hwf : b.wf) (h0 : b.Len = 0)
    (p : List Nat) :
    (((b.Write p).1).Read p.length).1.1 = p ∧
    drainBytes (b.Write p).1.Len (b.Write p).1 = p ∧
    ((p.foldl Buffer.WriteByte b).Read p.length).1.1 = p ∧
    drainBytes (p.foldl Buffer.WriteByte b).Len (p.foldl Buffer.WriteByte b) = p := by
  have hbe : b.Bytes = [] := by
    apply List.eq_nil_of_length_eq_zero
    rw [bytes_length b hwf, h0]
  obtain ⟨hwB, hwn, hwwf⟩ := write_Bytes b hwf p
  rw [hbe, List.nil_append] at hwB
  obtain ⟨hfB, hfwf⟩ := foldl_writeByte_Bytes p b hwf
  rw [hbe, List.nil_append] at hfB
  have hlen1 : (b.Write p).1.Len = p.length := by
    rw [← bytes_length _ hwwf, hwB]
  have hlen2 : (p.foldl Buffer.WriteByte b).Len = p.length := by
    rw [← bytes_length _ hfwf, hfB]
  refine ⟨?_, ?_, ?_, ?_⟩
  · rw [read_all _ hwwf _ (by omega), hwB]
  · rw [drainBytes_all _ _ hwwf rfl, hwB]
  · rw [read_all _ hfwf _ (by omega), hfB]
  · rw [drainBytes_all _ _ hfwf rfl, hfB]

/-- Witness for C3 with a zero-capacity buffer and `p = [5,6,7]` (growth
forced). -/
theorem write_read_roundtrip_witness :
    (((FromBytes []).Write [5, 6, 7]).1.Read 3).1.1 = [5, 6, 7] ∧
    drainBytes ((FromBytes []).Write [5, 6, 7]).1.Len
      ((FromBytes []).Write [5, 6, 7]).1 = [5, 6, 7] := by
  have h := write_read_roundtrip (FromBytes []) (by decide) (by decide) [5, 6, 7]
  exact ⟨h.1, h.2.1⟩

/-- C5: For every buffer `b` and every `n >= 0`: if fewer than `n` readable
bytes are available, `ReadBytes(n)` signals end-of-data and leaves the
buffer's entire state (`data`, `start`, `end`, `pooled`) unchanged; if at
least `n` readable bytes are available, it returns a copy of the first `n`
readable bytes and advances `start` by `n`, resetting both cursors to 0
when the readable region becomes empty.  (The returned list is a fresh
value, aliasing being outside the value model.) -/
theorem readBytes_spec (b : Buffer) (n : Int) (hn : 0 ≤ n) :
    ((b.Len : Int) < n → b.ReadBytes n = (.error "EOF", b)) ∧
    (n ≤ (b.Len : Int) →
      (b.ReadBytes n).1 = .ok (b.Bytes.take n.toNat) ∧
      (b.ReadBytes n).2 =
        (if b.start + n.toNat = b.endPos then { b with start := 0, endPos := 0 }
         else { b with start := b.start + n.toNat })) := by
  constructor
  · intro hlt
    unfold Buffer.ReadBytes
    rw [if_neg (by omega), if_pos hlt]
  · intro hle
    have htake : (b.data.drop b.start).take n.toNat = b.Bytes.take n.toNat := by
      show _ = ((b.data.drop b.start).take (b.endPos - b.start)).take n.toNat
      rw [List.take_take]
      congr 1
      have hL : b.Len = b.endPos - b.start := rfl
      omega
    unfold Buffer.ReadBytes
    rw [if_neg (by omega), if_neg (by omega)]
    by_cases hse : b.start + n.toNat = b.endPos
    · rw [if_pos hse, if_pos hse]
      exact ⟨by rw [htake], rfl⟩
    · rw [if_neg hse, if_neg hse]
      exact ⟨by rw [htake], rfl⟩

/-- Witness for C5: two readable bytes, `n = 2` drains and resets. -/
theorem readBytes_spec_witness :
    ((FromBytes [4, 5]).ReadBytes 2).1 = .ok ((FromBytes [4, 5]).Bytes.take (2 : Int).toNat) ∧
    ((FromBytes [4, 5]).ReadBytes 2).2 =
      (if (FromBytes [4, 5]).start + (2 : Int).toNat = (FromBytes [4, 5]).endPos
       then { FromBytes [4, 5] with start := 0, endPos := 0 }
       else { FromBytes [4, 5] with start := (FromBytes [4, 5]).start + (2 : Int).toNat }) :=
  (readBytes_spec (FromBytes [4, 5]) 2 (by norm_num)).2 (by decide)

/-- C6 counterexample: `ReadBytes(-1)` on a concrete buffer returns the
recoverable error value `errors.New("buffer: negative length")` together
with the untouched buffer — it is not a panic (the claim asserts a
process-terminating abort for `ReadBytes` on negative input). -/
theorem readBytes_neg_counterexample :
    (FromBytes [1, 2, 3]).ReadBytes (-1) =
      (Except.error "buffer: negative length", FromBytes [1, 2, 3]) := rfl

/-- C6 amended: for every `n < 0`, `Extend(n)` is a fatal panic
(`panic("buffer: negative extend size")`, modelled `none`), while
`ReadBytes(n)` returns the recoverable error
`errors.New("buffer: negative length")` to the caller and leaves the
buffer unchanged. -/
theorem negative_length_behavior (b : Buffer) (n : Int) (hn : n < 0) :
    b.Extend n = none ∧
    b.ReadBytes n = (Except.error "buffer: negative length", b) := by
  unfold Buffer.Extend Buffer.ReadBytes
  rw [if_pos hn, if_pos hn]
  exact ⟨rfl, rfl⟩

/-- Witness for the amended C6 at a concrete buffer and `n = -2`. -/
theorem negative_length_behavior_witness :
    (FromBytes [9]).Extend (-2) = none ∧
    (FromBytes [9]).ReadBytes (-2) =
      (Except.error "buffer: negative length", FromBytes [9]) :=
  negative_length_behavior (FromBytes [9]) (-2) (by norm_num)

/-- C7: For every size `s`, `NewSize(s)` never fails (it is total): when
the allocator can serve `s` (`1 <= s <= 65536`) the buffer's backing
region is pooled (`pooled = true`) with length exactly `s`; when the pool
reports unservable, it silently falls back — for `s > 65536` it directly
allocates exactly `s` bytes with `pooled = false`, and for `s = 0` it
yields an empty, nil-backed, non-pooled buffer. -/
theorem newSize_spec (a : Allocator) (hwf : a.wf) (s : Int) :
    (1 ≤ s → s ≤ 65536 →
      (NewSize s a).1.pooled = true ∧ ((NewSize s a).1.data.length : Int) = s) ∧
    ((65536 : Int) < s →
      (NewSize s a).1.pooled = false ∧
      (NewSize s a).1.data = List.replicate s.toNat 0 ∧
      ((NewSize s a).1.data.length : Int) = s) ∧
    (s = 0 → NewSize s a = (⟨[], 0, 0, false, 0⟩, a)) := by
  refine ⟨?_, ?_, ?_⟩
  · intro h1 h2
    have hget := get_some a hwf s h1 h2
    unfold NewSize
    rw [if_neg (by omega), if_neg (by omega)]
    obtain ⟨r, a2, hsnd⟩ : ∃ r a2, a.get s = (r, a2) := ⟨_, _, rfl⟩
    have hr : r = some ⟨s.toNat,
        2 ^ (if s.toNat ≠ 2 ^ Nat.log 2 s.toNat then Nat.log 2 s.toNat + 1
             else Nat.log 2 s.toNat)⟩ := by rw [← hget, hsnd]
    rw [hsnd, hr]
    constructor
    · rfl
    · show ((List.replicate s.toNat 0).length : Int) = s
      rw [List.length_replicate]
      omega
  · intro hgt
    have hnone : a.get s = (none, a) := by
      unfold Allocator.get
      rw [if_pos (by simp only [MaxSize]; omega)]
    unfold NewSize
    rw [if_neg (by omega), if_neg (by omega), hnone]
    refine ⟨rfl, rfl, ?_⟩
    show ((List.replicate s.toNat 0).length : Int) = s
    rw [List.length_replicate]
    omega
  · intro hz
    subst hz
    rfl

/-- Witness for C7 at the fresh allocator, `s = 3` (pooled) and
`s = 70000` (fallback). -/
theorem newSize_spec_witness :
    ((NewSize 3 NewAllocator).1.pooled = true ∧
      (((NewSize 3 NewAllocator).1.data.length : Int) = 3)) ∧
    ((NewSize 70000 NewAllocator).1.pooled = false ∧
      (NewSize 70000 NewAllocator).1.data = List.replicate (70000 : Int).toNat 0 ∧
      (((NewSize 70000 NewAllocator).1.data.length : Int) = 70000)) :=
  ⟨(newSize_spec NewAllocator (by decide) 3).1 (by norm_num) (by norm_num),
   (newSize_spec NewAllocator (by decide) 70000).2.1 (by norm_num)⟩

/-- C10: For every size `s < 0`, `NewSize(s)` behaves exactly like
`NewSize(0)`: it returns an empty, non-pooled buffer with nil backing
storage and zero capacity, rather than failing, panicking, or touching the
pool. -/
theorem newSize_neg (a : Allocator) (s : Int) (hs : s < 0) :
    NewSize s a = NewSize 0 a ∧
    NewSize s a = (⟨[], 0, 0, false, 0⟩, a) := by
  have h1 : NewSize s a = (⟨[], 0, 0, false, 0⟩, a) := by
    unfold NewSize
    rw [if_pos hs]
    rfl
  have h2 : NewSize 0 a = (⟨[], 0, 0, false, 0⟩, a) := rfl
  exact ⟨by rw [h1, h2], h1⟩

/-- Witness for C10 at `s = -7` on the fresh allocator. -/
theorem newSize_neg_witness :
    NewSize (-7) NewAllocator = NewSize 0 NewAllocator ∧
    NewSize (-7) NewAllocator = (⟨[], 0, 0, false, 0⟩, NewAllocator) :=
  newSize_neg NewAllocator (-7) (by norm_num)

/-- C8: `Buffer.Release()` never fails from the caller's perspective: when
the backing region is pool-owned it returns that region to the allocator
(ignoring any pool error) and then resets the buffer to the empty,
capacity-less zero state; calling `Release` on a nil buffer, an
already-released buffer (the zero state), or a buffer wrapping externally
supplied storage is a safe no-op that never returns anything to the pool
and never corrupts pool state (the allocator invariant is preserved in
every case). -/
theorem release_spec (a : Allocator) (hwf : a.wf) (b : Buffer) :
    Release none a = (none, a) ∧
    (b.pooled = true → b.data ≠ [] →
      Release (some b) a =
        (some Buffer.empty, (a.put (some ⟨b.data.length, b.gocap⟩)).1)) ∧
    (b.pooled = false ∨ b.data = [] →
      Release (some b) a = (some Buffer.empty, a)) ∧
    Release (some Buffer.empty) a = (some Buffer.empty, a) ∧
    (Release (some b) a).2.wf := by
  refine ⟨rfl, ?_, ?_, rfl, ?_⟩
  · intro hp hd
    simp only [Release]
    rw [if_pos ⟨hp, hd⟩]
  · intro hcond
    simp only [Release]
    rw [if_neg ?_]
    rintro ⟨hpool, hdata⟩
    rcases hcond with h | h
    · rw [h] at hpool
      exact absurd hpool (by simp)
    · exact hdata h
  · simp only [Release]
    by_cases hc : b.pooled = true ∧ b.data ≠ []
    · rw [if_pos hc]
      exact put_wf a hwf (some ⟨b.data.length, b.gocap⟩)
    · rw [if_neg hc]
      exact hwf

/-- Witness for C8 with a pooled buffer of capacity 4 on the fresh
allocator. -/
theorem release_spec_witness :
    Release (some ⟨[7, 7], 0, 2, true, 4⟩) NewAllocator =
      (some Buffer.empty,
        (NewAllocator.put (some ⟨(Buffer.mk [7, 7] 0 2 true 4).data.length,
          (Buffer.mk [7, 7] 0 2 true 4).gocap⟩)).1) ∧
    Release (some Buffer.empty) NewAllocator = (some Buffer.empty, NewAllocator) :=
  ⟨(release_spec NewAllocator (by decide) ⟨[7, 7], 0, 2, true, 4⟩).2.1 rfl (by simp),
   (release_spec NewAllocator (by decide) ⟨[7, 7], 0, 2, true, 4⟩).2.2.2.1⟩

/-- Constructed buffers start with both cursors at zero, hence
well-formed. -/
theorem newSize_wf (s : Int) (a : Allocator) : (NewSize s a).1.wf := by
  simp only [NewSize]
  by_cases h0 : (if s < 0 then 0 else s) = 0
  · rw [if_pos h0]
    exact ⟨Nat.le_refl 0, Nat.zero_le _⟩
  · rw [if_neg h0]
    cases hget : a.get (if s < 0 then 0 else s) with
    | mk r? a2 =>
      cases r? <;> exact ⟨Nat.le_refl 0, Nat.zero_le _⟩

/-- `Extend` yields a well-formed buffer whenever it does not panic. -/
theorem extend_wf (b : Buffer) (hwf : b.wf) (n : Int) :
    ∀ out b', b.Extend n = some (out, b') → b'.wf := by
  intro out b' h
  by_cases hn : n < 0
  · simp only [Buffer.Extend, if_pos hn] at h
    exact absurd h (by simp)
  · simp only [Buffer.Extend, if_neg hn] at h
    obtain ⟨-, hb'⟩ := Prod.mk.injEq .. ▸ Option.some.injEq .. ▸ h
    subst hb'
    have hg := grow_wf b n hwf
    refine ⟨le_trans hg.1 (Nat.le_add_right _ _), ?_⟩
    show (b.grow n).endPos + n.toNat ≤ (b.grow n).data.length
    rcases Nat.eq_zero_or_pos n.toNat with hz | hpos
    · rw [hz]
      simpa using hg.2
    · have := grow_free b n hwf (by omega)
      omega

/-- `Read` yields a well-formed buffer. -/
theorem read_wf (b : Buffer) (hwf : b.wf) (destLen : Nat) :
    (b.Read destLen).1.2.wf := by
  simp only [Buffer.Read]
  split
  · exact hwf
  · split
    · exact ⟨Nat.le_refl 0, Nat.zero_le _⟩
    · refine ⟨?_, hwf.2⟩
      show b.start + min destLen b.Len ≤ b.endPos
      have hL : b.Len = b.endPos - b.start := rfl
      have h1 := hwf.1
      rename_i hne hse
      have : ¬ b.Len = 0 := by simpa [Buffer.IsEmpty] using hne
      omega

/-- `ReadByte` yields a well-formed buffer whenever it returns a byte. -/
theorem readByte_wf (b : Buffer) (hwf : b.wf) :
    ∀ c' b', b.ReadByte = some (c', b') → b'.wf := by
  intro c' b' h
  by_cases hl : 0 < b.Len
  · obtain ⟨b'', hrb, hwf', -, -⟩ := readByte_cons b hwf hl
    rw [hrb] at h
    obtain ⟨-, hb'⟩ := Prod.mk.injEq .. ▸ Option.some.injEq .. ▸ h
    subst hb'
    exact hwf'
  · have he : b.IsEmpty = true := by simp [Buffer.IsEmpty]; omega
    simp only [Buffer.ReadByte, he, if_true] at h
    exact absurd h (by simp)

/-- `ReadBytes` yields a well-formed buffer. -/
theorem readBytes_wf (b : Buffer) (hwf : b.wf) (n : Int) :
    (b.ReadBytes n).2.wf := by
  simp only [Buffer.ReadBytes]
  split
  · exact hwf
  · split
    · exact hwf
    · split
      · exact ⟨Nat.le_refl 0, Nat.zero_le _⟩
      · refine ⟨?_, hwf.2⟩
        show b.start + n.toNat ≤ b.endPos
        rename_i hnneg hlen hse
        have hL : b.Len = b.endPos - b.start := rfl
        have h1 := hwf.1
        omega

/-- C9: Every Buffer reachable through the public operations (`New`,
`NewSize`, `FromBytes`, `Write`, `WriteByte`, `Extend`, `Read`,
`ReadByte`, `ReadBytes`, `Reset`, `Release`) satisfies the invariant
`0 <= start <= end <= len(data)`, so the readable region `data[start:end]`
and the free region `data[end:]` are always well defined; every operation
preserves this invariant (`To` performs no state change). -/
theorem operations_preserve_wf (a : Allocator) (b : Buffer) (hwf : b.wf)
    (s n : Int) (p : List Nat) (c destLen : Nat) :
    (New a).1.wf ∧ (NewSize s a).1.wf ∧ (FromBytes p).wf ∧
    (b.Write p).1.wf ∧ (b.WriteByte c).wf ∧
    (∀ out b', b.Extend n = some (out, b') → b'.wf) ∧
    (b.Read destLen).1.2.wf ∧
    (∀ c' b', b.ReadByte = some (c', b') → b'.wf) ∧
    (b.ReadBytes n).2.wf ∧
    b.Reset.wf ∧
    (∀ b', (Release (some b) a).1 = some b' → b'.wf) := by
  refine ⟨newSize_wf _ a, newSize_wf s a, ⟨Nat.zero_le _, Nat.le_refl _⟩,
    (write_Bytes b hwf p).2.2, (writeByte_Bytes b hwf c).2,
    extend_wf b hwf n, read_wf b hwf destLen, readByte_wf b hwf,
    readBytes_wf b hwf n, ⟨Nat.le_refl 0, Nat.zero_le _⟩, ?_⟩
  intro b' h
  have hb' : b' = Buffer.empty := by
    simp only [Release] at h
    split at h
    · exact (Option.some.injEq .. ▸ h).symm
    · exact (Option.some.injEq .. ▸ h).symm
  subst hb'
  exact ⟨Nat.le_refl 0, Nat.zero_le _⟩

/-- Witness for C9 at a concrete buffer, allocator and arguments. -/
theorem operations_preserve_wf_witness :
    ((FromBytes [1, 2]).Write [3]).1.wf ∧
    ((FromBytes [1, 2]).ReadBytes 1).2.wf :=
  ⟨(operations_preserve_wf NewAllocator (FromBytes [1, 2]) (by decide)
      5 1 [3] 7 1).2.2.2.1,
   (operations_preserve_wf NewAllocator (FromBytes [1, 2]) (by decide)
      5 1 [3] 7 1).2.2.2.2.2.2.2.2.1⟩

end Ark
